import Mathlib

/-!
Verification development for the betfair-tools archive ingestion pipeline.

The definitions below are a shallow embedding of the repository's code:

* `decrypt`, `rawPlain`, `sliceToNegLast` embed `download.py:decrypt`
  (magic-marker check, salt extraction, PBKDF2-style key derivation split
  into a 32-byte key and 16-byte IV, AES-256-CBC decryption, and the
  Python `plaintext[:-padding]` unpadding step).  The key-derivation
  function and the AES block cipher are library primitives external to
  the repository, so they enter the embedding as parameters (`kdf`, `D`,
  `E`); theorems that need their algebra assume only the block-cipher
  inverse and length-preservation laws, which the real AES satisfies.
* `network_logs`, `classifyLine`, `appendLine`, `runClassifier`,
  `sinkWrite`, `writePhase`, `extract` embed `download.py:network_logs`
  and `download.py:extract` (structure validation, the if/elif line
  classifier, and the per-category partition-write loop).  The file
  system is a map from partition keys (category, stem) to contents; the
  NDJSON-to-parquet rendering done by the polars library is the
  parameter `render`.
* `pagedWindows`, `windowStep`, `windowLoop`, `paged_request` embed
  `orders.py:paged_request` (backward 24-hour window tiling and the
  bounded consecutive-error retry loop).
-/

/-! ## Byte strings and the decryption pipeline (download.py: decrypt) -/

abbrev Bytes := List Nat

/-- The fixed 8-byte magic marker, the bytes of `b"Salted__"`. -/
def magic : Bytes := [0x53, 0x61, 0x6C, 0x74, 0x65, 0x64, 0x5F, 0x5F]

/-- Byte-wise XOR of two byte strings (truncates to the shorter). -/
def xorBytes (a b : Bytes) : Bytes := List.zipWith Nat.xor a b

/-- Fuel-driven chunking of a byte string into 16-byte blocks. -/
def toBlocksAux : Nat → Bytes → List Bytes
  | _, [] => []
  | 0, _ :: _ => []
  | fuel + 1, a :: rest => ((a :: rest).take 16) :: toBlocksAux fuel ((a :: rest).drop 16)

/-- Chunk a byte string into 16-byte blocks (the last may be shorter). -/
def toBlocks (l : Bytes) : List Bytes := toBlocksAux l.length l

/-- CBC-mode encryption of a block sequence with block cipher `E` under
`key`, chaining from `iv`. -/
def cbcEncryptBlocks (E : Bytes → Bytes → Bytes) (key : Bytes) : Bytes → List Bytes → List Bytes
  | _, [] => []
  | iv, p :: ps =>
    E key (xorBytes iv p) :: cbcEncryptBlocks E key (E key (xorBytes iv p)) ps

/-- CBC-mode decryption of a block sequence with block-cipher inverse `D`
under `key`, chaining from `iv`. -/
def cbcDecryptBlocks (D : Bytes → Bytes → Bytes) (key : Bytes) : Bytes → List Bytes → List Bytes
  | _, [] => []
  | iv, c :: cs => xorBytes iv (D key c) :: cbcDecryptBlocks D key c cs

/-- The Python slice `x[:-p]`: for `p = 0` this is `x[:0] = []`, otherwise
it keeps all but the last `p` elements (empty when `p ≥ |x|`). -/
def sliceToNegLast (p : Nat) (x : Bytes) : Bytes :=
  if p = 0 then [] else x.take (x.length - p)

/-- Failure modes of `decrypt`: `format` is the magic-marker mismatch
(`ValueError` in the source); `cipher` is the block-alignment failure the
AES library raises on finalize; `empty` is the `plaintext[-1]` index error
on an empty plaintext. -/
inductive DecryptError
  | format
  | cipher
  | empty
deriving DecidableEq

/-- The raw CBC plaintext `decrypt` computes before unpadding: salt is
bytes 8..16, ciphertext the rest; `kdf` yields the 48 bytes of key
material, split into a 32-byte key and 16-byte IV exactly as the source's
`_key_iv[:32]` / `_key_iv[32:]`. -/
def rawPlain (kdf : String → Bytes → Bytes) (D : Bytes → Bytes → Bytes)
    (password : String) (input : Bytes) : Bytes :=
  List.flatten (cbcDecryptBlocks D
    ((kdf password ((input.drop 8).take 8)).take 32)
    ((kdf password ((input.drop 8).take 8)).drop 32)
    (toBlocks (input.drop 16)))

/-- Embedding of `download.py:decrypt`: check the 8-byte magic marker,
derive key material from the next 8 bytes (the salt), CBC-decrypt the
remainder, then drop `plaintext[-1]` trailing bytes via the Python slice
`plaintext[:-padding]`. -/
def decrypt (kdf : String → Bytes → Bytes) (D : Bytes → Bytes → Bytes)
    (password : String) (input : Bytes) : Except DecryptError Bytes :=
  if input.take 8 ≠ magic then .error .format
  else if (input.drop 16).length % 16 ≠ 0 then .error .cipher
  else
    match (rawPlain kdf D password input).getLast? with
    | none => .error .empty
    | some p => .ok (sliceToNegLast p (rawPlain kdf D password input))

/-- PKCS-style length padding to a multiple of 16 bytes: append `n` copies
of the byte `n`, where `n = 16 - len mod 16` (so `1 ≤ n ≤ 16`). -/
def pad16 (p : Bytes) : Bytes := p ++ List.replicate (16 - p.length % 16) (16 - p.length % 16)

/-- Reference encryption of the scheme `decrypt` reverses: the magic
marker, then the salt, then the CBC encryption of the padded plaintext
under the key/IV derived from the same `kdf`. -/
def encrypt (kdf : String → Bytes → Bytes) (E : Bytes → Bytes → Bytes)
    (password : String) (salt : Bytes) (plain : Bytes) : Bytes :=
  magic ++ (salt ++ List.flatten (cbcEncryptBlocks E
    ((kdf password salt).take 32)
    ((kdf password salt).drop 32)
    (toBlocks (pad16 plain))))

/-! ## Line classification and partition writing (download.py: extract) -/

/-- `startsWithChars hay pat`: the character list `pat` is an initial
segment of `hay`. -/
def startsWithChars : List Char → List Char → Bool
  | _, [] => true
  | [], _ :: _ => false
  | a :: as, b :: bs => a == b && startsWithChars as bs

/-- `occursIn pat hay`: the character list `pat` occurs contiguously
somewhere in `hay`. -/
def occursIn (pat : List Char) : List Char → Bool
  | [] => pat.isEmpty
  | a :: as => startsWithChars (a :: as) pat || occursIn pat as

/-- `containsSub hay pat` is the Python substring test `pat in hay`. -/
def containsSub (hay pat : String) : Bool := occursIn pat.data hay.data

/-- The closed set of output categories, in the buffer-dictionary's
insertion order. -/
inductive Category
  | catalogues
  | definitions
  | posts
  | cancels
  | updates
deriving DecidableEq

/-- The categories in the order the source's buffer dictionary iterates
them. -/
def categoryOrder : List Category :=
  [.catalogues, .definitions, .posts, .cancels, .updates]

/-- The marker substring associated with each category by the if/elif
chain of `download.py:extract`.  The `updates` marker is the raw Python
string `r'\"op\":\"ocm\"'`. -/
def markerOf : Category → String
  | .catalogues => "listMarketCatalogue"
  | .definitions => "marketDefinition"
  | .posts => "placeOrders"
  | .cancels => "cancelOrders"
  | .updates => "\\\"op\\\":\\\"ocm\\\""

/-- Embedding of the if/elif classification chain: the first marker
occurring in the line decides the category; a line matching no marker is
classified to none. -/
def classifyLine (line : String) : Option Category :=
  if containsSub line "listMarketCatalogue" then some .catalogues
  else if containsSub line "marketDefinition" then some .definitions
  else if containsSub line "placeOrders" then some .posts
  else if containsSub line "cancelOrders" then some .cancels
  else if containsSub line "\\\"op\\\":\\\"ocm\\\"" then some .updates
  else none

/-- The five in-memory category buffers of `download.py:extract`. -/
structure Buffers where
  catalogues : String
  definitions : String
  posts : String
  cancels : String
  updates : String
deriving DecidableEq

/-- The initial, empty buffers. -/
def Buffers.empty : Buffers := ⟨"", "", "", "", ""⟩

/-- Read one category's buffer. -/
def bufGet (b : Buffers) : Category → String
  | .catalogues => b.catalogues
  | .definitions => b.definitions
  | .posts => b.posts
  | .cancels => b.cancels
  | .updates => b.updates

/-- Process one line: append it raw (terminator included) to the buffer
of its classified category, or leave all buffers unchanged when no marker
matches. -/
def appendLine (b : Buffers) (l : String) : Buffers :=
  match classifyLine l with
  | some .catalogues => { b with catalogues := b.catalogues ++ l }
  | some .definitions => { b with definitions := b.definitions ++ l }
  | some .posts => { b with posts := b.posts ++ l }
  | some .cancels => { b with cancels := b.cancels ++ l }
  | some .updates => { b with updates := b.updates ++ l }
  | none => b

/-- The line-classification loop: fold `appendLine` over the member's
lines starting from empty buffers. -/
def runClassifier (lines : List String) : Buffers :=
  lines.foldl appendLine Buffers.empty

/-- A tar container member: name, regular-file flag, size, and (for
regular files) its text lines, each carrying its terminator. -/
structure TarMember where
  name : String
  isfile : Bool
  size : Nat
  lines : List String

/-- Embedding of `download.py:network_logs`: keep members that are
regular files, have nonzero size, and whose name contains the log-member
marker substring. -/
def network_logs (members : List TarMember) : List TarMember :=
  members.filter fun m =>
    m.isfile && decide (0 < m.size) && containsSub m.name "application-network.json"

/-- The part of a member name before the first `/`, the source's
`_log.name.partition("/")[0]`. -/
def stemOf (name : String) : String := String.mk (name.data.takeWhile (fun c => c != '/'))

/-- A partition key: the output file is `destination / category /
stem.parquet`, determined by the category and the archive-derived stem. -/
structure PartKey where
  category : Category
  stem : String
deriving DecidableEq

/-- The partition store: which partition keys hold which bytes. -/
abbrev FS := PartKey → Option String

/-- Create or overwrite one partition. -/
def FS.write (fs : FS) (k : PartKey) (v : String) : FS :=
  fun k2 => if k2 = k then some v else fs k2

/-- Outcome of one category's write in `download.py:extract`: empty
buffer (the "No data" branch), destination already exists (the
write-conflict branch), the polars decode/write raised (the except
branch), or a successful write. -/
inductive SinkOutcome
  | noData
  | conflict
  | renderFailed
  | written
deriving DecidableEq

/-- Whether the write loop continues after this outcome (the source
`return False`s exactly on `conflict` and `renderFailed`). -/
def sinkOk : SinkOutcome → Bool
  | .noData => true
  | .written => true
  | .conflict => false
  | .renderFailed => false

/-- One category's write: skip empty buffers, report a conflict without
touching the store when the destination exists, otherwise render the
buffer (`render` models polars NDJSON decoding, telemetry-drop, and
parquet encoding, `none` being a raised exception) and create the
partition. -/
def sinkWrite (render : String → Option String) (fs : FS) (k : PartKey) (buf : String) :
    SinkOutcome × FS :=
  if 0 < buf.length then
    if (fs k).isSome then (.conflict, fs)
    else
      match render buf with
      | some content => (.written, FS.write fs k content)
      | none => (.renderFailed, fs)
  else (.noData, fs)

/-- Result of the per-archive write phase: all categories processed, or
aborted at the first category whose write did not succeed. -/
inductive PhaseResult
  | ok
  | aborted (c : Category) (o : SinkOutcome)
deriving DecidableEq

/-- The write loop over the buffer dictionary: write each category in
order, stopping with `aborted` at the first conflict or render failure. -/
def writePhase (render : String → Option String) (stem : String)
    (bufs : Category → String) : FS → List Category → PhaseResult × FS
  | fs, [] => (.ok, fs)
  | fs, c :: rest =>
    match sinkWrite render fs ⟨c, stem⟩ (bufs c) with
    | (o, fs2) => if sinkOk o then writePhase render stem bufs fs2 rest else (.aborted c o, fs2)

/-- Result of `download.py:extract`: the structure-validation failure, or
the write phase's result. -/
inductive ExtractResult
  | structureError
  | phase (r : PhaseResult)
deriving DecidableEq

/-- Embedding of `download.py:extract`: filter the container members to
the qualifying log members; unless exactly one qualifies, fail with the
structure error and write nothing; otherwise classify that member's
lines and run the write phase over the category order. -/
def extract (render : String → Option String) (fs : FS) (members : List TarMember) :
    ExtractResult × FS :=
  match network_logs members with
  | [log] =>
    match writePhase render (stemOf log.name)
        (bufGet (runClassifier log.lines)) fs categoryOrder with
    | (r, fs2) => (.phase r, fs2)
  | _ => (.structureError, fs)

/-- The boolean `download.py:extract` returns: `True` exactly when the
structure check and every category write succeeded. -/
def extractBool : ExtractResult → Bool
  | .phase .ok => true
  | .phase (.aborted _ _) => false
  | .structureError => false

/-! ## The paged fetcher (orders.py: paged_request) -/

/-- Seconds per day; naive-datetime day arithmetic is exact 24-hour
steps. -/
def secondsPerDay : Int := 86400

/-- `datetime.combine(t.date(), time.min)`: floor a timestamp (seconds)
to its day's midnight. -/
def midnight (t : Int) : Int := secondsPerDay * (Int.fdiv t secondsPerDay)

/-- The window loop of `paged_request`, already unrolled: starting from
the current `to` timestamp, emit `(to - 24h, to)` and recurse with
`to := to - 24h` while the remaining day count is nonnegative. -/
def pagedWindowsAux : Nat → Int → List (Int × Int)
  | 0, t => [(t - secondsPerDay, t)]
  | d + 1, t => (t - secondsPerDay, t) :: pagedWindowsAux d (t - secondsPerDay)

/-- The retrieval windows `paged_request now days` iterates: `to` starts
at midnight two days before `now` and walks backward one day at a time. -/
def pagedWindows (now : Int) (days : Nat) : List (Int × Int) :=
  pagedWindowsAux days (midnight (now - 2 * secondsPerDay))

/-- One upstream call's result: an exception, or a page with its
`more_available` flag and its record count `len(response.orders)`. -/
inductive CallResult
  | failure
  | success (moreAvailable : Bool) (orders : Nat)
deriving DecidableEq

/-- The per-window mutable state of `paged_request`: `_ongoing`,
`_record` (the next call's record offset), `_errors` (consecutive
failures). -/
structure WinState where
  ongoing : Bool
  record : Nat
  errors : Nat
deriving DecidableEq

/-- One iteration of the inner `while` body: a failure increments the
consecutive-error counter and leaves the offset unchanged; a success
resets the counter, advances the offset by the page's record count, and
keeps going exactly when more data is available. -/
def windowStep (s : WinState) : CallResult → WinState
  | .failure => { s with errors := s.errors + 1 }
  | .success more n => { ongoing := more, record := s.record + n, errors := 0 }

/-- The inner `while _ongoing and _errors < 5` loop, driven by the list
of upstream call results it consumes.  Returns the final state and the
record offsets at which calls were made. -/
def windowLoop (s : WinState) (calls : List CallResult) : WinState × List Nat :=
  if s.ongoing && s.errors < 5 then
    match calls with
    | [] => (s, [])
    | c :: rest =>
      match windowLoop (windowStep s c) rest with
      | (s2, offs) => (s2, s.record :: offs)
  else (s, [])

/-- Embedding of `orders.py:paged_request`: each retrieval window is
processed independently with fresh state `⟨true, 0, 0⟩`; `upstream`
gives the call results available in each window.  The run is total: it
always yields one outcome per window. -/
def paged_request (now : Int) (days : Nat) (upstream : Int × Int → List CallResult) :
    List (WinState × List Nat) :=
  (pagedWindows now days).map (fun w => windowLoop ⟨true, 0, 0⟩ (upstream w))

/-! ## Helper lemmas -/

/-- `String.join` distributes over cons. -/
theorem strJoin_cons (l : String) (ls : List String) :
    String.join (l :: ls) = l ++ String.join ls := by
  apply String.ext
  simp [String.join_eq, String.data_append]

/-! ## C1 -/

/-- C1: write-once idempotency of the category sink.  If the destination
partition for key `k` already exists, `sinkWrite` reports the conflict
and leaves the store untouched; a successful write creates the partition,
and a second call with the same key then reports the conflict and leaves
the first call's bytes unchanged; a key that already holds a value is
never modified, so the partition is created only when the destination did
not previously exist. -/
theorem sinkWrite_write_once (render : String → Option String) (fs : FS) (k : PartKey)
    (buf : String) :
    ((fs k).isSome = true → 0 < buf.length → sinkWrite render fs k buf = (.conflict, fs)) ∧
    (∀ content, fs k = none → 0 < buf.length → render buf = some content →
      sinkWrite render fs k buf = (.written, FS.write fs k content) ∧
      FS.write fs k content k = some content ∧
      (∀ buf2, 0 < buf2.length →
        sinkWrite render (FS.write fs k content) k buf2 = (.conflict, FS.write fs k content))) ∧
    (∀ k2, fs k2 ≠ none → ((sinkWrite render fs k buf).2) k2 = fs k2) := by
  refine ⟨fun h hbuf => ?_, fun content hnone hbuf hrender => ⟨?_, ?_, fun buf2 hbuf2 => ?_⟩,
    fun k2 hk2 => ?_⟩
  · simp [sinkWrite, hbuf, h]
  · simp [sinkWrite, hbuf, hnone, hrender]
  · simp [FS.write]
  · simp [sinkWrite, FS.write, hbuf2]
  · by_cases hbuf : 0 < buf.length
    · by_cases hk : (fs k).isSome
      · simp [sinkWrite, hbuf, hk]
      · cases hrender : render buf with
        | some content =>
          simp only [sinkWrite, hbuf, if_true, hk, Bool.false_eq_true, if_false, hrender]
          simp only [FS.write]
          rcases eq_or_ne k2 k with heq | hne
          · subst heq
            exact absurd (Option.not_isSome_iff_eq_none.mp hk) hk2
          · simp [hne]
        | none => simp [sinkWrite, hbuf, hk, hrender]
    · simp [sinkWrite, hbuf]

/-- Witness for C1 at a concrete store: one successful write, then a
conflicting second write that leaves the first bytes in place. -/
theorem sinkWrite_write_once_witness :
    sinkWrite some (fun _ => none) ⟨.updates, "X"⟩ "B"
        = (.written, FS.write (fun _ => none) ⟨.updates, "X"⟩ "B") ∧
      FS.write (fun _ => none) ⟨Category.updates, "X"⟩ "B" ⟨.updates, "X"⟩ = some "B" ∧
      sinkWrite some (FS.write (fun _ => none) ⟨.updates, "X"⟩ "B") ⟨.updates, "X"⟩ "B2"
        = (.conflict, FS.write (fun _ => none) ⟨.updates, "X"⟩ "B") := by
  have h := (sinkWrite_write_once some (fun _ => none) ⟨.updates, "X"⟩ "B").2.1
    "B" rfl (by decide) rfl
  exact ⟨h.1, h.2.1, h.2.2 "B2" (by decide)⟩

/-! ## C4 -/

/-- C4: `decrypt` fails with the format error exactly when the first 8
input bytes differ from the magic marker; and in that case the failure
happens before the salt is read or any key material is derived: the
result is the format error for every key-derivation function, block
cipher, password, and input sharing those first 8 bytes. -/
theorem decrypt_format_error_iff (kdf : String → Bytes → Bytes) (D : Bytes → Bytes → Bytes)
    (password : String) (input : Bytes) :
    (decrypt kdf D password input = .error .format ↔ input.take 8 ≠ magic) ∧
    (input.take 8 ≠ magic →
      ∀ (kdf2 : String → Bytes → Bytes) (D2 : Bytes → Bytes → Bytes) (pw2 : String)
        (input2 : Bytes), input2.take 8 = input.take 8 →
        decrypt kdf2 D2 pw2 input2 = .error .format) := by
  constructor
  · constructor
    · intro hd
      by_contra hmag
      rw [decrypt, if_neg (by simp [hmag])] at hd
      split at hd
      · exact absurd (Except.error.inj hd) (by simp)
      · split at hd
        · exact absurd (Except.error.inj hd) (by simp)
        · exact Except.noConfusion hd
    · intro h
      rw [decrypt, if_pos h]
  · intro h kdf2 D2 pw2 input2 h2
    rw [decrypt, if_pos (by rw [h2]; exact h)]

/-- Witness for C4: a concrete input with a wrong first byte fails with
the format error under any parameters. -/
theorem decrypt_format_error_iff_witness :
    decrypt (fun _ _ => []) (fun _ _ => []) "pw" [0, 1, 2] = .error .format := by
  exact (decrypt_format_error_iff (fun _ _ => []) (fun _ _ => []) "pw" [0, 1, 2]).1.2
    (by decide)

/-! ## C5 -/

/-- C5: container structure validation.  The qualifying members are
exactly the regular-file, nonzero-size entries whose name contains the
log-member marker; `extract` fails with the structure error, leaving the
partition store untouched, exactly when their number is not 1; and when
exactly one qualifies, that member's line sequence is classified and its
buffers drive the write phase. -/
theorem extract_structure_validation (render : String → Option String) (fs : FS)
    (members : List TarMember) :
    (∀ m, m ∈ network_logs members ↔
      m ∈ members ∧ m.isfile = true ∧ 0 < m.size ∧
        containsSub m.name "application-network.json" = true) ∧
    (extract render fs members = (.structureError, fs) ↔
      (network_logs members).length ≠ 1) ∧
    (∀ log, network_logs members = [log] →
      extract render fs members =
        (match writePhase render (stemOf log.name)
            (bufGet (runClassifier log.lines)) fs categoryOrder with
         | (r, fs2) => (.phase r, fs2))) := by
  refine ⟨fun m => ?_, ?_, fun log hlog => ?_⟩
  · simp [network_logs, List.mem_filter, and_assoc]
  · cases h : network_logs members with
    | nil => simp [extract, h]
    | cons a t =>
      cases t with
      | nil =>
        rcases hw : writePhase render (stemOf a.name)
            (bufGet (runClassifier a.lines)) fs categoryOrder with ⟨r, fs2⟩
        simp [extract, h, hw]
      | cons b t2 => simp [extract, h]
  · simp [extract, hlog]

/-- Witness for C5: a two-qualifying-member container is rejected with
the structure error and no partition is written. -/
theorem extract_structure_validation_witness :
    extract some (fun _ => none)
        [⟨"a/application-network.json", true, 3, []⟩,
         ⟨"b/application-network.json", true, 4, []⟩]
      = (.structureError, fun _ => none) := by
  exact (extract_structure_validation some (fun _ => none)
    [⟨"a/application-network.json", true, 3, []⟩,
     ⟨"b/application-network.json", true, 4, []⟩]).2.1.mpr (by decide)

/-! ## C6 -/

/-- A line classified to `c` is appended verbatim to `c`'s buffer. -/
theorem bufGet_appendLine_match (b : Buffers) (l : String) (c : Category)
    (h : classifyLine l = some c) : bufGet (appendLine b l) c = bufGet b c ++ l := by
  cases c <;> simp [appendLine, h, bufGet]

/-- A line not classified to `c` leaves `c`'s buffer unchanged. -/
theorem bufGet_appendLine_other (b : Buffers) (l : String) (c : Category)
    (h : classifyLine l ≠ some c) : bufGet (appendLine b l) c = bufGet b c := by
  cases hl : classifyLine l with
  | none => simp [appendLine, hl]
  | some c2 =>
    have hne : c2 ≠ c := by rintro rfl; exact h hl
    cases c2 <;> cases c <;> simp_all [appendLine, bufGet]

/-- The classification fold computes, per category, the concatenation of
exactly the lines classified to that category, in order. -/
theorem bufGet_foldl (lines : List String) (b : Buffers) (c : Category) :
    bufGet (lines.foldl appendLine b) c
      = bufGet b c ++ String.join (lines.filter (fun l => classifyLine l == some c)) := by
  induction lines generalizing b with
  | nil => simp [String.join, String.append_empty]
  | cons l rest ih =>
    by_cases hl : classifyLine l = some c
    · simp only [List.foldl_cons, ih (appendLine b l), List.filter_cons,
        bufGet_appendLine_match b l c hl]
      rw [if_pos (by simp [hl]), strJoin_cons, String.append_assoc]
    · simp only [List.foldl_cons, ih (appendLine b l), List.filter_cons,
        bufGet_appendLine_other b l c hl]
      rw [if_neg (by simp [hl])]

/-- C6: line classification.  Classification is the deterministic first
match over the fixed priority order; a line matching no marker changes no
buffer; a matched line is appended raw to exactly its category's buffer
and to no other; each final buffer is the concatenation of exactly its
matched lines; and an empty buffer produces no output partition (the
"no data" branch leaves the store untouched). -/
theorem classifyLine_first_match :
    (∀ L : String,
      classifyLine L = categoryOrder.find? (fun c => containsSub L (markerOf c))) ∧
    (∀ (L : String) (b : Buffers), classifyLine L = none → appendLine b L = b) ∧
    (∀ (L : String) (b : Buffers) (c : Category), classifyLine L = some c →
      bufGet (appendLine b L) c = bufGet b c ++ L ∧
      ∀ c2, c2 ≠ c → bufGet (appendLine b L) c2 = bufGet b c2) ∧
    (∀ (lines : List String) (c : Category),
      bufGet (runClassifier lines) c =
        String.join (lines.filter (fun l => classifyLine l == some c))) ∧
    (∀ (render : String → Option String) (fs : FS) (k : PartKey),
      sinkWrite render fs k "" = (.noData, fs)) := by
  refine ⟨fun L => ?_, fun L b h => ?_, fun L b c h => ⟨?_, fun c2 hc2 => ?_⟩,
    fun lines c => ?_, fun render fs k => ?_⟩
  · cases h1 : containsSub L "listMarketCatalogue" <;>
    cases h2 : containsSub L "marketDefinition" <;>
    cases h3 : containsSub L "placeOrders" <;>
    cases h4 : containsSub L "cancelOrders" <;>
    cases h5 : containsSub L "\\\"op\\\":\\\"ocm\\\"" <;>
    simp [classifyLine, categoryOrder, markerOf, List.find?, h1, h2, h3, h4, h5]
  · simp [appendLine, h]
  · exact bufGet_appendLine_match b L c h
  · exact bufGet_appendLine_other b L c2 (by rw [h]; exact fun hx => hc2 (Option.some.inj hx).symm)
  · have := bufGet_foldl lines Buffers.empty c
    rw [runClassifier, this]
    cases c <;> simp [Buffers.empty, bufGet, String.empty_append]
  · simp [sinkWrite]

/-- Witness for C6 on a concrete five-line stream: each marked line lands
in exactly its category's buffer and the unmatched line in none. -/
theorem classifyLine_first_match_witness :
    bufGet (runClassifier ["a placeOrders\n", "junk\n", "b marketDefinition\n"]) .posts
        = "a placeOrders\n" ∧
      bufGet (runClassifier ["a placeOrders\n", "junk\n", "b marketDefinition\n"]) .definitions
        = "b marketDefinition\n" ∧
      bufGet (runClassifier ["a placeOrders\n", "junk\n", "b marketDefinition\n"]) .cancels
        = "" := by
  have h := classifyLine_first_match.2.2.2.1
  refine ⟨?_, ?_, ?_⟩
  · rw [h ["a placeOrders\n", "junk\n", "b marketDefinition\n"] .posts]; decide
  · rw [h ["a placeOrders\n", "junk\n", "b marketDefinition\n"] .definitions]; decide
  · rw [h ["a placeOrders\n", "junk\n", "b marketDefinition\n"] .cancels]; decide

/-! ## C7 -/

/-- A conflicting or failed category write leaves the store untouched. -/
theorem sinkWrite_fail_snd (render : String → Option String) (fs : FS) (k : PartKey)
    (buf : String) (o : SinkOutcome) (h : (sinkWrite render fs k buf).1 = o)
    (ho : o = .conflict ∨ o = .renderFailed) : sinkWrite render fs k buf = (o, fs) := by
  by_cases hbuf : 0 < buf.length
  · by_cases hk : (fs k).isSome
    · simp only [sinkWrite, hbuf, if_true, hk] at h ⊢
      simp [← h]
    · cases hrender : render buf with
      | some content =>
        simp only [sinkWrite, hbuf, if_true, hk, Bool.false_eq_true, if_false, hrender] at h
        rcases ho with rfl | rfl <;> exact absurd h.symm (by simp)
      | none =>
        simp only [sinkWrite, hbuf, if_true, hk, Bool.false_eq_true, if_false, hrender] at h ⊢
        simp [← h]
  · simp only [sinkWrite, hbuf, if_false] at h
    rcases ho with rfl | rfl <;> exact absurd h.symm (by simp)

/-- C7: partial commit on conflict.  If the write phase's categories are
`pre ++ c :: post`, every category of `pre` succeeds (reaching store
`fs1`), and `c`'s write conflicts or fails, then the whole phase aborts
at `c` with exactly the store `fs1`: the partitions already written for
the earlier categories remain in place unchanged, neither `c` nor any
category of `post` is written, and the archive is reported failed. -/
theorem writePhase_partial_commit (render : String → Option String) (stem : String)
    (bufs : Category → String) (fs fs1 : FS) (pre post : List Category) (c : Category)
    (o : SinkOutcome)
    (h1 : writePhase render stem bufs fs pre = (.ok, fs1))
    (h2 : (sinkWrite render fs1 ⟨c, stem⟩ (bufs c)).1 = o)
    (h3 : o = .conflict ∨ o = .renderFailed) :
    writePhase render stem bufs fs (pre ++ c :: post) = (.aborted c o, fs1) ∧
    extractBool (.phase (.aborted c o)) = false := by
  refine ⟨?_, rfl⟩
  induction pre generalizing fs with
  | nil =>
    simp only [writePhase] at h1
    injection h1 with h1a h1b
    subst h1b
    have hok : sinkOk o = false := by rcases h3 with rfl | rfl <;> rfl
    simp only [List.nil_append, writePhase,
      sinkWrite_fail_snd render fs ⟨c, stem⟩ (bufs c) o h2 h3, hok]
    simp
  | cons c0 pre ih =>
    have hsplit : (c0 :: pre) ++ c :: post = c0 :: (pre ++ c :: post) := rfl
    rw [hsplit]
    simp only [writePhase] at h1 ⊢
    rcases hw : sinkWrite render fs ⟨c0, stem⟩ (bufs c0) with ⟨o0, fs2⟩
    simp only [hw] at h1 ⊢
    by_cases hok : sinkOk o0
    · rw [if_pos hok] at h1 ⊢
      exact ih fs2 h1
    · rw [if_neg hok] at h1
      exact absurd (congrArg Prod.fst h1) (by simp)

/-- Witness for C7: with the `definitions` partition pre-existing, the
phase writes `catalogues`, aborts at `definitions` with a conflict, and
the already-written `catalogues` partition survives. -/
theorem writePhase_partial_commit_witness :
    writePhase some "A"
        (fun c => match c with | .catalogues => "x" | .definitions => "y" | _ => "")
        (fun k => if k = ⟨.definitions, "A"⟩ then some "OLD" else none)
        ([.catalogues] ++ .definitions :: [.posts, .cancels, .updates])
      = (.aborted .definitions .conflict,
         FS.write (fun k => if k = ⟨.definitions, "A"⟩ then some "OLD" else none)
           ⟨.catalogues, "A"⟩ "x") := by
  exact (writePhase_partial_commit some "A"
    (fun c => match c with | .catalogues => "x" | .definitions => "y" | _ => "")
    (fun k => if k = ⟨.definitions, "A"⟩ then some "OLD" else none)
    (FS.write (fun k => if k = ⟨.definitions, "A"⟩ then some "OLD" else none)
      ⟨.catalogues, "A"⟩ "x")
    [.catalogues] [.posts, .cancels, .updates] .definitions .conflict
    rfl rfl (Or.inl rfl)).1

/-! ## C8 -/

/-- The window loop always emits one window per remaining day plus one. -/
theorem pagedWindowsAux_length (d : Nat) (t : Int) :
    (pagedWindowsAux d t).length = d + 1 := by
  induction d generalizing t with
  | zero => rfl
  | succ d ih => simp [pagedWindowsAux, ih]

/-- Every emitted window spans exactly 24 hours. -/
theorem pagedWindowsAux_span (d : Nat) (t : Int) :
    ∀ w ∈ pagedWindowsAux d t, w.2 - w.1 = secondsPerDay := by
  induction d generalizing t with
  | zero =>
    intro w hw
    simp only [pagedWindowsAux, List.mem_singleton] at hw
    subst hw
    ring
  | succ d ih =>
    intro w hw
    simp only [pagedWindowsAux, List.mem_cons] at hw
    rcases hw with rfl | hw
    · ring
    · exact ih (t - secondsPerDay) w hw

/-- The head of the window loop's output is `(t - 24h, t)`. -/
theorem pagedWindowsAux_head (d : Nat) (t : Int) :
    (pagedWindowsAux d t).head? = some (t - secondsPerDay, t) := by
  cases d <;> rfl

/-- Consecutive windows are contiguous: each next (older) window ends
where the previous one starts. -/
theorem pagedWindowsAux_chain (d : Nat) (t : Int) :
    List.Chain' (fun a b : Int × Int => b.2 = a.1) (pagedWindowsAux d t) := by
  induction d generalizing t with
  | zero => simp [pagedWindowsAux]
  | succ d ih =>
    rw [pagedWindowsAux, List.chain'_cons']
    refine ⟨fun b hb => ?_, ih (t - secondsPerDay)⟩
    rw [pagedWindowsAux_head d (t - secondsPerDay)] at hb
    cases hb
    rfl

/-- C8: window tiling of the paged fetcher.  For `days = D` the fetcher
produces exactly `D + 1` windows; each spans exactly 24 hours; adjacent
windows are contiguous (the next, older window ends where the previous
starts), so they tile backward without overlap; and the newest window
ends at midnight of the day two days before `now`. -/
theorem pagedWindows_tiling (now : Int) (days : Nat) :
    (pagedWindows now days).length = days + 1 ∧
    (∀ w ∈ pagedWindows now days, w.2 - w.1 = secondsPerDay) ∧
    List.Chain' (fun a b : Int × Int => b.2 = a.1) (pagedWindows now days) ∧
    (pagedWindows now days).head? =
      some (midnight (now - 2 * secondsPerDay) - secondsPerDay,
        midnight (now - 2 * secondsPerDay)) := by
  exact ⟨pagedWindowsAux_length days _, pagedWindowsAux_span days _,
    pagedWindowsAux_chain days _, pagedWindowsAux_head days _⟩

/-- Witness for C8 at `now = 400000`, `days = 1`: two windows, each
24 hours, contiguous, the newer ending at midnight two days before. -/
theorem pagedWindows_tiling_witness :
    (pagedWindows 400000 1).length = 2 ∧ (86400, 172800).2 - (86400, 172800).1 = secondsPerDay := by
  exact ⟨(pagedWindows_tiling 400000 1).1,
    (pagedWindows_tiling 400000 1).2.1 (86400, 172800) (by decide)⟩

/-! ## C9 -/

/-- Once the loop condition fails (not ongoing, or five consecutive
errors), no further call is consumed. -/
theorem windowLoop_abandon (s : WinState) (calls : List CallResult)
    (h : (s.ongoing && decide (s.errors < 5)) = false) :
    windowLoop s calls = (s, []) := by
  cases calls <;> simp only [windowLoop, h, Bool.false_eq_true, if_false]

/-- C9: bounded per-window retry.  An upstream failure increments the
consecutive-error counter and leaves the record offset unchanged, so the
same offset is retried; a success resets the counter to zero, advances
the offset by the page's record count, and continues exactly while more
data is available; against an upstream failing every call, exactly five
attempts are made, all at offset 0, before the window is abandoned with
the remaining calls unconsumed; and abandoning windows never fails the
run: the fetcher still yields an outcome for every one of the `days + 1`
windows. -/
theorem windowLoop_retry_bound :
    (∀ s : WinState, windowStep s .failure = ⟨s.ongoing, s.record, s.errors + 1⟩) ∧
    (∀ (s : WinState) (more : Bool) (n : Nat),
      windowStep s (.success more n) = ⟨more, s.record + n, 0⟩) ∧
    (∀ rest : List CallResult,
      windowLoop ⟨true, 0, 0⟩
          (.failure :: .failure :: .failure :: .failure :: .failure :: rest)
        = (⟨true, 0, 5⟩, [0, 0, 0, 0, 0])) ∧
    (∀ (now : Int) (days : Nat) (upstream : Int × Int → List CallResult),
      (paged_request now days upstream).length = days + 1) := by
  refine ⟨fun s => rfl, fun s more n => rfl, fun rest => ?_, fun now days upstream => ?_⟩
  · simp [windowLoop, windowStep, windowLoop_abandon]
  · simp [paged_request, pagedWindows, pagedWindowsAux_length]

/-! ## CBC lemmas for C2 and C3 -/

/-- XOR with the same mask twice is the identity on equal-length byte
strings. -/
theorem xorBytes_cancel : ∀ (a b : Bytes), a.length = b.length →
    xorBytes a (xorBytes a b) = b := by
  intro a
  induction a with
  | nil =>
    intro b hb
    cases b with
    | nil => rfl
    | cons x xs => simp at hb
  | cons x xs ih =>
    intro b hb
    cases b with
    | nil => simp at hb
    | cons y ys =>
      have hxy : xs.length = ys.length := by simpa using hb
      have hx : Nat.xor x (Nat.xor x y) = y := Nat.xor_cancel_left x y
      simp only [xorBytes, List.zipWith_cons_cons]
      rw [hx]
      exact congrArg (List.cons y) (ih ys hxy)

/-- XOR preserves the common length. -/
theorem xorBytes_length (a b : Bytes) (ha : a.length = 16) (hb : b.length = 16) :
    (xorBytes a b).length = 16 := by
  simp [xorBytes, List.length_zipWith, ha, hb]

/-- Unfolding of the block chunker on a nonempty list. -/
theorem toBlocksAux_cons (fuel : Nat) (l : Bytes) (h : l ≠ []) :
    toBlocksAux (fuel + 1) l = l.take 16 :: toBlocksAux fuel (l.drop 16) := by
  cases l with
  | nil => exact absurd rfl h
  | cons a rest => rfl

/-- Chunking then flattening is the identity, given enough fuel. -/
theorem toBlocksAux_flatten : ∀ (fuel : Nat) (l : Bytes), l.length ≤ fuel →
    List.flatten (toBlocksAux fuel l) = l := by
  intro fuel
  induction fuel with
  | zero =>
    intro l hl
    cases l with
    | nil => rfl
    | cons a rest => simp at hl
  | succ fuel ih =>
    intro l hl
    cases l with
    | nil => rfl
    | cons a rest =>
      have hl2 : rest.length + 1 ≤ fuel + 1 := by simpa using hl
      rw [toBlocksAux_cons fuel (a :: rest) (by simp)]
      rw [List.flatten_cons,
        ih ((a :: rest).drop 16) (by rw [List.length_drop, List.length_cons]; omega)]
      exact List.take_append_drop ..

/-- Flattening then chunking recovers a sequence of 16-byte blocks,
given enough fuel. -/
theorem toBlocksAux_of_blocks : ∀ (bs : List Bytes) (fuel : Nat),
    (∀ b ∈ bs, b.length = 16) → (List.flatten bs).length ≤ fuel →
    toBlocksAux fuel (List.flatten bs) = bs := by
  intro bs
  induction bs with
  | nil => intro fuel _ _; cases fuel <;> rfl
  | cons b rest ih =>
    intro fuel hb hfuel
    have hb16 : b.length = 16 := hb b (by simp)
    have hlen : (List.flatten (b :: rest)).length
        = 16 + (List.flatten rest).length := by
      simp [List.flatten_cons, hb16]
    cases fuel with
    | zero => omega
    | succ fuel =>
      have hne : List.flatten (b :: rest) ≠ [] := by
        intro hx
        rw [hx] at hlen
        simp only [List.length_nil] at hlen
        omega
      rw [toBlocksAux_cons fuel _ hne, List.flatten_cons,
        List.take_left' hb16, List.drop_left' hb16,
        ih fuel (fun x hx => hb x (by simp [hx])) (by omega)]

/-- All chunks of a byte string whose length is a positive multiple of 16
have length exactly 16. -/
theorem toBlocksAux_mem : ∀ (fuel : Nat) (l : Bytes), l.length ≤ fuel →
    l.length % 16 = 0 → ∀ b ∈ toBlocksAux fuel l, b.length = 16 := by
  intro fuel
  induction fuel with
  | zero =>
    intro l hl hmod b hb
    cases l with
    | nil => simp [toBlocksAux] at hb
    | cons a rest => simp at hl
  | succ fuel ih =>
    intro l hl hmod b hb
    cases l with
    | nil => simp [toBlocksAux] at hb
    | cons a rest =>
      rw [List.length_cons] at hl hmod
      have hlen : 16 ≤ rest.length + 1 := by omega
      rw [toBlocksAux_cons fuel (a :: rest) (by simp)] at hb
      rcases List.mem_cons.mp hb with rfl | hb2
      · rw [List.length_take, List.length_cons]
        omega
      · exact ih ((a :: rest).drop 16)
          (by rw [List.length_drop, List.length_cons]; omega)
          (by rw [List.length_drop, List.length_cons]; omega) b hb2

/-- A sequence of 16-byte blocks flattens to `16 * count` bytes. -/
theorem flatten_blocks_length : ∀ bs : List Bytes, (∀ b ∈ bs, b.length = 16) →
    (List.flatten bs).length = 16 * bs.length := by
  intro bs
  induction bs with
  | nil => intro _; rfl
  | cons b rest ih =>
    intro h
    have := h b (by simp)
    have := ih (fun x hx => h x (by simp [hx]))
    simp only [List.flatten_cons, List.length_append, List.length_cons]
    omega

/-- Every ciphertext block a CBC encryption emits is 16 bytes, provided
the block cipher preserves block length. -/
theorem cbcEncryptBlocks_mem (E : Bytes → Bytes → Bytes) (key : Bytes)
    (hElen : ∀ b : Bytes, b.length = 16 → (E key b).length = 16) :
    ∀ (ps : List Bytes) (iv : Bytes), iv.length = 16 → (∀ p ∈ ps, p.length = 16) →
    ∀ c ∈ cbcEncryptBlocks E key iv ps, c.length = 16 := by
  intro ps
  induction ps with
  | nil => intro iv _ _ c hc; simp [cbcEncryptBlocks] at hc
  | cons p ps ih =>
    intro iv hiv hps c hc
    have hp : p.length = 16 := hps p (by simp)
    have hx : (xorBytes iv p).length = 16 := xorBytes_length iv p hiv hp
    rw [cbcEncryptBlocks] at hc
    rcases List.mem_cons.mp hc with rfl | hc2
    · exact hElen _ hx
    · exact ih (E key (xorBytes iv p)) (hElen _ hx) (fun x hx2 => hps x (by simp [hx2])) c hc2

/-- CBC decryption inverts CBC encryption block by block, provided the
block cipher is inverted by `D` and preserves block length. -/
theorem cbc_roundtrip (E D : Bytes → Bytes → Bytes) (key : Bytes)
    (hED : ∀ b : Bytes, b.length = 16 → D key (E key b) = b)
    (hElen : ∀ b : Bytes, b.length = 16 → (E key b).length = 16) :
    ∀ (ps : List Bytes) (iv : Bytes), iv.length = 16 → (∀ p ∈ ps, p.length = 16) →
    cbcDecryptBlocks D key iv (cbcEncryptBlocks E key iv ps) = ps := by
  intro ps
  induction ps with
  | nil => intro iv _ _; rfl
  | cons p ps ih =>
    intro iv hiv hps
    have hp : p.length = 16 := hps p (by simp)
    have hx : (xorBytes iv p).length = 16 := xorBytes_length iv p hiv hp
    rw [cbcEncryptBlocks, cbcDecryptBlocks, hED _ hx,
      xorBytes_cancel iv p (by omega),
      ih (E key (xorBytes iv p)) (hElen _ hx) (fun x hx2 => hps x (by simp [hx2]))]

/-- The padded plaintext's length is a multiple of 16. -/
theorem pad16_length_mod (p : Bytes) : (pad16 p).length % 16 = 0 := by
  simp only [pad16, List.length_append, List.length_replicate]
  omega

/-- The padded plaintext ends in the pad-length byte, which is between 1
and 16. -/
theorem pad16_getLast (p : Bytes) :
    (pad16 p).getLast? = some (16 - p.length % 16) ∧ 0 < 16 - p.length % 16 := by
  have hpos : 0 < 16 - p.length % 16 := by omega
  constructor
  · rcases hn : 16 - p.length % 16 with _ | m
    · omega
    · rw [pad16, hn, List.replicate_succ', ← List.append_assoc, List.getLast?_concat]
  · exact hpos

/-- Removing the pad-length byte's worth of trailing bytes from the
padded plaintext recovers the plaintext. -/
theorem pad16_unpad (p : Bytes) : sliceToNegLast (16 - p.length % 16) (pad16 p) = p := by
  have hpos : 0 < 16 - p.length % 16 := by omega
  rw [sliceToNegLast, if_neg (by omega)]
  have hlen : (pad16 p).length = p.length + (16 - p.length % 16) := by
    simp [pad16]
  rw [hlen]
  have : p.length + (16 - p.length % 16) - (16 - p.length % 16) = p.length := by omega
  rw [this, pad16, List.take_left' rfl]

/-! ## C2 -/

/-- C2: decryption round-trip.  For every plaintext, password, and 8-byte
salt, `decrypt` inverts the reference `encrypt` of the same scheme: the
magic marker, the salt, and the CBC encryption of the length-padded
plaintext under the key/IV split of the derived 48 bytes of key material.
The key-derivation function and block cipher are parameters constrained
exactly as the real PBKDF2-HMAC-SHA256 (48-byte output) and AES-256
(length-preserving 16-byte block permutation) behave. -/
theorem decrypt_encrypt_roundtrip (kdf : String → Bytes → Bytes)
    (E D : Bytes → Bytes → Bytes)
    (hED : ∀ (k b : Bytes), b.length = 16 → D k (E k b) = b)
    (hElen : ∀ (k b : Bytes), b.length = 16 → (E k b).length = 16)
    (hkdf : ∀ (pw : String) (s : Bytes), (kdf pw s).length = 48)
    (P : Bytes) (W : String) (salt : Bytes) (hsalt : salt.length = 8) :
    decrypt kdf D W (encrypt kdf E W salt P) = .ok P := by
  set key := (kdf W salt).take 32 with hkey
  set iv := (kdf W salt).drop 32 with hiv
  have hivlen : iv.length = 16 := by rw [hiv, List.length_drop, hkdf]
  have hpb : ∀ b ∈ toBlocks (pad16 P), b.length = 16 :=
    toBlocksAux_mem (pad16 P).length (pad16 P) le_rfl (pad16_length_mod P)
  set ct := List.flatten (cbcEncryptBlocks E key iv (toBlocks (pad16 P))) with hct
  have hcb : ∀ c ∈ cbcEncryptBlocks E key iv (toBlocks (pad16 P)), c.length = 16 :=
    cbcEncryptBlocks_mem E key (hElen key) (toBlocks (pad16 P)) iv hivlen hpb
  have hctlen : ct.length = 16 * (cbcEncryptBlocks E key iv (toBlocks (pad16 P))).length := by
    rw [hct]
    exact flatten_blocks_length _ hcb
  have htake8 : (magic ++ (salt ++ ct)).take 8 = magic := List.take_left' rfl
  have hdrop8 : (magic ++ (salt ++ ct)).drop 8 = salt ++ ct := List.drop_left' rfl
  have hsalt8 : (salt ++ ct).take 8 = salt := List.take_left' hsalt
  have hdrop16 : (magic ++ (salt ++ ct)).drop 16 = ct := by
    rw [← List.append_assoc]
    refine List.drop_left' ?_
    rw [List.length_append, hsalt]
    rfl
  have h1 : toBlocks ct = cbcEncryptBlocks E key iv (toBlocks (pad16 P)) := by
    rw [hct, toBlocks]
    exact toBlocksAux_of_blocks _ _ hcb le_rfl
  have hraw : rawPlain kdf D W (magic ++ (salt ++ ct)) = pad16 P := by
    simp only [rawPlain, hdrop8, hsalt8, hdrop16, h1]
    rw [cbc_roundtrip E D key (hED key) (hElen key) (toBlocks (pad16 P)) iv hivlen hpb]
    exact toBlocksAux_flatten (pad16 P).length (pad16 P) le_rfl
  have hc1 : ¬((magic ++ (salt ++ ct)).take 8 ≠ magic) := by
    rw [htake8]
    exact not_ne_iff.mpr rfl
  have hc2 : ¬(((magic ++ (salt ++ ct)).drop 16).length % 16 ≠ 0) := by
    rw [hdrop16, hctlen]
    exact not_ne_iff.mpr (Nat.mul_mod_right 16 _)
  show decrypt kdf D W (magic ++ (salt ++ ct)) = .ok P
  unfold decrypt
  rw [if_neg hc1, if_neg hc2, hraw, (pad16_getLast P).1]
  show Except.ok (sliceToNegLast (16 - P.length % 16) (pad16 P)) = Except.ok P
  rw [pad16_unpad]

/-- Witness for C2: a concrete round trip through the identity block
cipher and a constant key-derivation function, which satisfy the
theorem's cipher laws. -/
theorem decrypt_encrypt_roundtrip_witness :
    decrypt (fun _ _ => List.replicate 48 0) (fun _ b => b) "pw"
        (encrypt (fun _ _ => List.replicate 48 0) (fun _ b => b) "pw"
          (List.replicate 8 9) [1, 2, 3])
      = .ok [1, 2, 3] := by
  exact decrypt_encrypt_roundtrip (fun _ _ => List.replicate 48 0)
    (fun _ b => b) (fun _ b => b)
    (fun _ _ _ => rfl) (fun _ _ h => h) (fun _ _ => by simp)
    [1, 2, 3] "pw" (List.replicate 8 9) (by simp)

/-! ## C3 -/

/-- C3 counterexample: an input whose raw CBC plaintext is the 16 zero
bytes (non-empty, last byte `p = 0`).  The claim says that for `p = 0` no
bytes are removed, so decrypt should return the 16 zero bytes; instead
the Python slice `plaintext[:-0] = plaintext[:0]` drops everything and
decrypt returns the empty byte string. -/
theorem decrypt_pad_zero_counterexample :
    rawPlain (fun _ _ => List.replicate 48 0) (fun _ b => b) "pw"
        (magic ++ (List.replicate 8 0 ++ List.replicate 16 0)) = List.replicate 16 0 ∧
    (List.replicate 16 0 : Bytes).getLast? = some 0 ∧
    decrypt (fun _ _ => List.replicate 48 0) (fun _ b => b) "pw"
        (magic ++ (List.replicate 8 0 ++ List.replicate 16 0)) = .ok [] ∧
    Except.ok ([] : Bytes) ≠ (Except.ok (List.replicate 16 0) : Except DecryptError Bytes) := by
  exact ⟨rfl, by decide, rfl, by simp⟩

/-- C3 (amended): padding removal.  For every input whose raw CBC
plaintext is non-empty with last byte `p`, decrypt returns: for `p ≥ 1`
the plaintext's first `length − p` bytes (exactly `p` trailing bytes
removed when `p ≤ length`, everything when `p > length`), and for
`p = 0` the empty byte string (the whole plaintext removed, not zero
bytes).  Only the length byte is inspected: no validation of the padding
bytes' content is performed. -/
theorem decrypt_padding_removal (kdf : String → Bytes → Bytes) (D : Bytes → Bytes → Bytes)
    (pw : String) (input : Bytes) (p : Nat)
    (hm : input.take 8 = magic)
    (hmod : (input.drop 16).length % 16 = 0)
    (hlast : (rawPlain kdf D pw input).getLast? = some p) :
    decrypt kdf D pw input =
      .ok (if p = 0 then []
        else (rawPlain kdf D pw input).take ((rawPlain kdf D pw input).length - p)) := by
  unfold decrypt
  rw [if_neg (not_ne_iff.mpr hm), if_neg (not_ne_iff.mpr hmod), hlast]
  rfl

/-- Witness for C3's amended claim at the counterexample's input: the
last byte is 0 and the whole 16-byte plaintext is dropped. -/
theorem decrypt_padding_removal_witness :
    decrypt (fun _ _ => List.replicate 48 0) (fun _ b => b) "pw"
        (magic ++ (List.replicate 8 0 ++ List.replicate 16 0)) = .ok [] := by
  have h := decrypt_padding_removal (fun _ _ => List.replicate 48 0) (fun _ b => b) "pw"
    (magic ++ (List.replicate 8 0 ++ List.replicate 16 0)) 0 (by decide) (by decide) (by decide)
  simpa using h
